import Mathlib

/-!
Verification development for the hkreduce directed-graph reduction engine.

The definitions below are a shallow embedding of the C++ sources under
`src/cpp` (headers `adjacency_matrix/csr.h`, `reducing/drg.h`,
`reducing/drgep.h`, `collections/bitmap.h`, `collections/sectioned.h`,
`collections/algorithms.h` together with `bsearchLeftToInsert`/`bsearchLeft`
from `src/include/hkreduce/collections/algorithms.h`, and the Python bridge
`src/cpp/src/hkreduce/python_interface/types.cpp`).

Conventions of the embedding:
* `size_t` indices become `Nat`; IEEE-754 `double` coefficients become `ℚ`
  (every comparison and product appearing in the verified statements is
  exact in both number systems).
* Bounds-checked `operator[]`/`replace` accesses are modelled by an explicit
  range test returning `Except.error Err.outOfRange` at the places where a
  claim depends on the check; reads that are in range under the hypotheses
  of a statement are modelled with `List.getD`.
* Every C++ loop is embedded as a fuel-indexed structural recursion so that
  all definitions reduce inside the kernel; exhausting fuel yields the
  distinguished error `Err.fuel`, which is never confused with an exception
  of the program.
* Allocator plumbing (the iterator arena, `Allocator*` arguments) has no
  observable effect on the values computed and is omitted.
-/

namespace Hkreduce

/- `Rat.mul` is `@[irreducible]` in the ambient library; the embedding's
path-weight products must evaluate inside closed statements, so restore the
default reducibility locally. -/
attribute [local semireducible] Rat.mul

/-- Equality on `Except` results is decidable; used to evaluate the closed
statements below inside the kernel. -/
instance {ε α : Type} [DecidableEq ε] [DecidableEq α] : DecidableEq (Except ε α)
  | .error e, .error f => decidable_of_iff (e = f) (by simp)
  | .error _, .ok _ => isFalse (by simp)
  | .ok _, .error _ => isFalse (by simp)
  | .ok a, .ok b => decidable_of_iff (a = b) (by simp)

/-- Error kinds of the engine: `outOfRange` models thrown `std::out_of_range`
(the spec's InvalidIndex), `invalidArgument` models `std::invalid_argument`
(the spec's InvalidArgument), `fuel` marks exhausted fuel of the embedding,
and `undefinedBehavior` marks a `size_t` underflow fed to `memmove`. -/
inductive Err where
  | outOfRange
  | invalidArgument
  | fuel
  | undefinedBehavior
deriving DecidableEq

/-- `IndexableCollection::insert(idx, v)`: shift `[idx, size)` right by one.
Used only with `idx ≤ length`, matching the bounds contract of the source. -/
def insertAt : List α → Nat → α → List α
  | xs, 0, a => a :: xs
  | [], _ + 1, a => [a]
  | x :: xs, i + 1, a => x :: insertAt xs i a

/-- The loop `for (i = from; i < size; ++i) ++rows[i];` of
`CSRAdjacencyMatrix::setCoef`: increment every entry from index `f` on. -/
def incFrom : List Nat → Nat → List Nat
  | [], _ => []
  | x :: xs, 0 => (x + 1) :: incFrom xs 0
  | x :: xs, f + 1 => x :: incFrom xs f

/-- Fuelled linear scan: first index in `[i, stop)` satisfying `pred`. -/
def findFromGo (pred : Nat → Bool) : Nat → Nat → Nat → Option Nat
  | 0, _, _ => none
  | fuel + 1, i, stop =>
    if i < stop then
      if pred i then some i else findFromGo pred fuel (i + 1) stop
    else none

/-- First index in `[i, stop)` satisfying `pred`, if any. -/
def findFrom (pred : Nat → Bool) (i stop : Nat) : Option Nat :=
  findFromGo pred (stop - i) i stop

/-- The loop of `bsearchLeftToInsert` (algorithms.h): binary search returning
the first position of `[start, stop]` at which `pred` (the comparator
`compare(collection[middle], element)`) turns false.  The fuel argument is
always instantiated with `stop - start`, which bounds the iteration count. -/
def bsearchGo (pred : Nat → Bool) : Nat → Nat → Nat → Nat
  | 0, start, _ => start
  | fuel + 1, start, stop =>
    if start < stop then
      if pred ((stop + start) / 2) then bsearchGo pred fuel ((stop + start) / 2 + 1) stop
      else bsearchGo pred fuel start ((stop + start) / 2)
    else start

/-- `bsearchLeftToInsert(collection, element, compare, start, stop)` with the
comparator abstracted into an index predicate. -/
def bsearchLeftToIns (pred : Nat → Bool) (start stop : Nat) : Nat :=
  bsearchGo pred (stop - start) start stop

/-! ## CSR adjacency matrix (`adjacency_matrix/csr.h`) -/

/-- `CSRAdjacencyMatrix<double>`: the three backing sequences.  The vertex
count is `rows.length` (the matrix is constructed with `rows->getSize()`). -/
structure CSRMatrix where
  rows : List Nat
  cols : List Nat
  coefs : List ℚ
deriving DecidableEq

/-- `this->getSize()` of the matrix. -/
def CSRMatrix.size (m : CSRMatrix) : Nat := m.rows.length

/-- `from != 0 ? rows[from - 1] : 0`: start offset of row `f` in `cols`/`coefs`. -/
def rowStart (rows : List Nat) (f : Nat) : Nat :=
  if f ≠ 0 then rows.getD (f - 1) 0 else 0

/-- `CSRAdjacencyMatrix::setCoef(from, to, coef)`.  The binary search uses the
default comparator `middleElement <= element` of `bsearchLeftToInsert`; its
internal `start ≤ stop ≤ size` guards cannot fire for a well-formed matrix
and in-range `from`, which is the situation of every statement below. -/
def setCoef (m : CSRMatrix) (f t : Nat) (v : ℚ) : Except Err (ℚ × CSRMatrix) :=
  if m.size ≤ f ∨ m.size ≤ t then .error .outOfRange
  else
    let start := rowStart m.rows f
    let stop := m.rows.getD f 0
    let idx := bsearchLeftToIns (fun i => decide (m.cols.getD i 0 ≤ t)) start stop
    if idx ≠ start ∧ m.cols.getD (idx - 1) 0 = t then
      .ok (m.coefs.getD (idx - 1) 0, ⟨m.rows, m.cols, m.coefs.set (idx - 1) v⟩)
    else if v ≠ 0 then
      .ok (0, ⟨incFrom m.rows f, insertAt m.cols idx t, insertAt m.coefs idx v⟩)
    else
      .ok (0, m)

/-! ## Neighbour iterator (`_CSRNeighboursIterator`) -/

/-- The members `size_t idx; size_t from;` plus the inherited `stopped` flag.
The field `frm` models the member `from`. -/
structure CSRIter where
  frm : Nat
  idx : Nat
  stopped : Bool
deriving DecidableEq

/-- The constructor `_CSRNeighboursIterator(matrix, from, to)`.  Its body
scans row `from` for the first stored entry with column `≥ to` (it does not
inspect coefficients) and otherwise parks at `rows[from]` with `stopped`.
The member `from` is never assigned by the constructor, so it keeps the
indeterminate content of the freshly allocated memory; that content is made
explicit as the argument `junk`. -/
def csrIterInit (m : CSRMatrix) (frm tc junk : Nat) : CSRIter :=
  let start := rowStart m.rows frm
  let stop := m.rows.getD frm 0
  match findFrom (fun j => decide (tc ≤ m.cols.getD j 0)) start stop with
  | some i => ⟨junk, i, false⟩
  | none => ⟨junk, m.rows.getD frm 0, true⟩

/-- `CSRAdjacencyMatrix::getNeighboursIterator(from, to)`: range checks, then
the constructor.  `replaceNeighboursIterator` performs the same checks and
re-runs the same constructor, so it is modelled by this function as well. -/
def getNeighboursIterator (m : CSRMatrix) (frm tc junk : Nat) : Except Err CSRIter :=
  if m.size ≤ frm ∨ m.size ≤ tc then .error .outOfRange
  else .ok (csrIterInit m frm tc junk)

/-- `iterator.getTo()`: the column of the current entry. -/
def iterGetTo (m : CSRMatrix) (it : CSRIter) : Nat := m.cols.getD it.idx 0

/-- `iterator.getCoef()`: the coefficient of the current entry. -/
def iterGetCoef (m : CSRMatrix) (it : CSRIter) : ℚ := m.coefs.getD it.idx 0

/-- `operator++`: resume after a `setCoef(0)` stop when possible, otherwise
scan forward past zero coefficients; park at `rows[from]` with `stopped` when
the row is exhausted.  Row bounds are taken from the member `frm`. -/
def iterInc (m : CSRMatrix) (it : CSRIter) : CSRIter :=
  let stop := m.rows.getD it.frm 0
  let start := rowStart m.rows it.frm
  if stop ≤ it.idx then it
  else if it.idx = start ∧ it.stopped = true ∧ m.coefs.getD it.idx 0 ≠ 0 then
    ⟨it.frm, it.idx, false⟩
  else
    match findFrom (fun j => decide (m.coefs.getD j 0 ≠ 0)) (it.idx + 1) stop with
    | some j => ⟨it.frm, j, false⟩
    | none => ⟨it.frm, stop, true⟩

/-! ## DRG (`reducing/drg.h`) -/

/-- Inner loop of `DRG::removeEdges` for one row: zero every coefficient
below the threshold through the iterator (`setCoef(0)` also raises the
iterator's `stopped` flag) and advance. -/
def pruneRow : Nat → CSRMatrix → CSRIter → ℚ → Except Err CSRMatrix
  | 0, _, _, _ => .error .fuel
  | fuel + 1, m, it, threshold =>
    if it.stopped then .ok m
    else if iterGetCoef m it < threshold then
      let m2 : CSRMatrix := ⟨m.rows, m.cols, m.coefs.set it.idx 0⟩
      let it2 : CSRIter := ⟨it.frm, it.idx, true⟩
      pruneRow fuel m2 (iterInc m2 it2) threshold
    else pruneRow fuel m (iterInc m it) threshold

/-- `DRG::removeEdges`: prune every row in turn.  The iterator is (re)seated
with `replaceNeighboursIterator(from, 0, ...)`, embedded by
`getNeighboursIterator` with the benign memory content `f` for the
uninitialised `from` member (see `csrIterInit`); any other content would make
the advance operations read foreign row bounds. -/
def removeEdgesGo : Nat → CSRMatrix → Nat → ℚ → Except Err CSRMatrix
  | 0, _, _, _ => .error .fuel
  | fuel + 1, m, f, threshold =>
    if f < m.size then
      match getNeighboursIterator m f 0 f with
      | .error e => .error e
      | .ok it =>
        match pruneRow fuel m it threshold with
        | .error e => .error e
        | .ok m2 => removeEdgesGo fuel m2 (f + 1) threshold
    else .ok m

/-- `DRG::checkAchievables`' DFS loop.  The stack of `(vertex, iterator)`
pairs has its top at the head.  One fuel step performs one action of the
source loop: pop a stopped frame, advance past an already-marked neighbour,
or mark-and-push a fresh neighbour (leaving the parent iterator in place). -/
def dfsLoop : Nat → CSRMatrix → List (Nat × CSRIter) → List Bool → Except Err (List Bool)
  | 0, _, _, _ => .error .fuel
  | fuel + 1, m, stack, ach =>
    match stack with
    | [] => .ok ach
    | (v, it) :: rest =>
      if it.stopped then dfsLoop fuel m rest ach
      else
        let u := iterGetTo m it
        if ach.length ≤ u then .error .outOfRange
        else if ach.getD u false then dfsLoop fuel m ((v, iterInc m it) :: rest) ach
        else
          match getNeighboursIterator m u 0 u with
          | .error e => .error e
          | .ok it2 => dfsLoop fuel m ((u, it2) :: (v, it) :: rest) (ach.set u true)

/-- `DRG::checkAchievables`: push the source with a fresh iterator, mark it,
run the DFS. -/
def checkAchievables (fuel : Nat) (m : CSRMatrix) (source : Nat) (ach : List Bool) :
    Except Err (List Bool) :=
  match getNeighboursIterator m source 0 source with
  | .error e => .error e
  | .ok it => dfsLoop fuel m [(source, it)] (ach.set source true)

/-- The source loop of `DRG::run`: the validation is literally
`if (source > matrix.getSize()) throw invalid_argument(...)`, after which
`achievables[source]` is read through the bitmap's bounds-checked
`operator[]` (which throws `out_of_range` when `source` equals the size). -/
def drgSources (fuel : Nat) (m : CSRMatrix) : List Nat → List Bool → Except Err (List Bool)
  | [], ach => .ok ach
  | s :: rest, ach =>
    if m.size < s then .error .invalidArgument
    else if ach.length ≤ s then .error .outOfRange
    else if ach.getD s false then drgSources fuel m rest ach
    else
      match checkAchievables fuel m s ach with
      | .error e => .error e
      | .ok ach2 => drgSources fuel m rest ach2

/-- `DRG::run`: threshold pruning, then the per-source DFS marking into the
`achievables` bitmap (modelled as its list of bits). -/
def drgRun (fuel : Nat) (m : CSRMatrix) (sources : List Nat) (threshold : ℚ) :
    Except Err (List Bool) :=
  match removeEdgesGo fuel m 0 threshold with
  | .error e => .error e
  | .ok m2 => drgSources fuel m2 sources (List.replicate m2.size false)

/-! ## DRGEP (`reducing/drgep.h`) -/

/-- The boolean comparator shared by `insertToOrderedQueue` and the
`compareToInsert` of `DRGEP::updateQueue`: path length first, vertex index
as tie break, `true` meaning "middle ≤ element" (search continues right). -/
def drgepLeB (paths : List ℚ) (mid node : Nat) : Bool :=
  if paths.getD mid 0 < paths.getD node 0 then true
  else if paths.getD node 0 < paths.getD mid 0 then false
  else decide (mid ≤ node)

/-- The tri-state `compareToSearch` of `DRGEP::updateQueue`: `1` when the
middle element orders strictly before the searched element, `-1` when
strictly after, `0` on equality. -/
def drgepCmp (paths : List ℚ) (mid node : Nat) : Int :=
  if paths.getD mid 0 < paths.getD node 0 then 1
  else if paths.getD node 0 < paths.getD mid 0 then -1
  else if mid < node then 1
  else if node < mid then -1
  else 0

/-- `DRGEP::insertToOrderedQueue`: binary-search an insertion position over
the whole queue with `drgepLeB` and insert the node there. -/
def insertToOrderedQueue (queue : List Nat) (paths : List ℚ) (node : Nat) : List Nat :=
  insertAt queue
    (bsearchLeftToIns (fun i => drgepLeB paths (queue.getD i 0) node) 0 queue.length)
    node

/-- `bsearchLeft(collection, element, compare)` of algorithms.h: run
`bsearchLeftToInsert` with the predicate `compare(middle, element) ≤ 0`,
then test the slot left of the returned position; `none` models the
`SIZE_MAX` "not found" result. -/
def bsearchLeftFind (queue : List Nat) (paths : List ℚ) (node : Nat) : Option Nat :=
  let pos := bsearchLeftToIns
    (fun i => decide (drgepCmp paths (queue.getD i 0) node ≤ 0)) 0 queue.length
  if pos = 0 then none
  else if drgepCmp paths (queue.getD (pos - 1) 0) node = 0 then some (pos - 1) else none

/-- `DRGEP::updateQueue`: called by `calcPathLengths` after
`pathsLengths.replace(...)` has already stored the new path length, so both
comparators read the updated key.  On a located slot the `memmove` shifts the
elements between the old and new positions one slot left and writes the node
at `idxToInsert - 1`; a negative `memmove` length (a `size_t` underflow in
the source) is flagged as `undefinedBehavior`. -/
def updateQueue (queue : List Nat) (paths : List ℚ) (node : Nat) : Except Err (List Nat) :=
  let idxToInsert := bsearchLeftToIns
    (fun i => drgepLeB paths (queue.getD i 0) node) 0 queue.length
  if paths.getD node 0 = 0 then .error .invalidArgument
  else
    match bsearchLeftFind queue paths node with
    | none => .error .invalidArgument
    | some currentIdx =>
      if currentIdx + 1 = idxToInsert then .ok queue
      else if idxToInsert < currentIdx + 1 then .error .undefinedBehavior
      else
        .ok (queue.take currentIdx
          ++ (queue.drop (currentIdx + 1)).take (idxToInsert - currentIdx - 1)
          ++ node :: queue.drop idxToInsert)

/-- The neighbour loop of `DRGEP::calcPathLengths`: for each edge of the
popped node compute `iterator.getCoef() * currentPathLength`, skip it when
it does not improve `pathsLengths[neighbour]` or falls below the threshold,
otherwise `replace` the stored length and insert or relocate the neighbour
in the ordered queue.  The range test before the comparison models the
bounds-checked `pathsLengths[neighbour]` access. -/
def neighLoop : Nat → CSRMatrix → ℚ → CSRIter → List Nat → List ℚ → ℚ →
    Except Err (List Nat × List ℚ)
  | 0, _, _, _, _, _, _ => .error .fuel
  | fuel + 1, m, threshold, it, queue, paths, l =>
    if it.stopped then .ok (queue, paths)
    else
      let u := iterGetTo m it
      let w := iterGetCoef m it * l
      if paths.length ≤ u then .error .outOfRange
      else if w ≤ paths.getD u 0 then neighLoop fuel m threshold (iterInc m it) queue paths l
      else if w < threshold then neighLoop fuel m threshold (iterInc m it) queue paths l
      else
        let old := paths.getD u 0
        let paths2 := paths.set u w
        if old = 0 then
          neighLoop fuel m threshold (iterInc m it)
            (insertToOrderedQueue queue paths2 u) paths2 l
        else
          match updateQueue queue paths2 u with
          | .error e => .error e
          | .ok queue2 => neighLoop fuel m threshold (iterInc m it) queue2 paths2 l

/-- The worklist loop of `DRGEP::calcPathLengths`: pop the queue's tail,
read its path length (bounds-checked), reseat the neighbour iterator
(`replaceNeighboursIterator(currentNode, 0, ...)`, with the benign memory
content for the uninitialised `from` member) and process the neighbours. -/
def calcGo : Nat → CSRMatrix → ℚ → List Nat → List ℚ → Except Err (List ℚ)
  | 0, _, _, _, _ => .error .fuel
  | fuel + 1, m, threshold, queue, paths =>
    match queue.getLast? with
    | none => .ok paths
    | some currentNode =>
      let queue1 := queue.dropLast
      if paths.length ≤ currentNode then .error .outOfRange
      else
        let l := paths.getD currentNode 0
        match getNeighboursIterator m currentNode 0 currentNode with
        | .error e => .error e
        | .ok it =>
          match neighLoop fuel m threshold it queue1 paths l with
          | .error e => .error e
          | .ok (queue2, paths2) => calcGo fuel m threshold queue2 paths2

/-- `DRGEP::calcPathLengths`: append the source to the queue, store path
length `1` for it (`pathsLengths[from] = 1` is bounds-checked) and run the
worklist loop. -/
def calcPathLengths (fuel : Nat) (m : CSRMatrix) (source : Nat) (threshold : ℚ)
    (queue : List Nat) (paths : List ℚ) : Except Err (List ℚ) :=
  let queue1 := queue ++ [source]
  if paths.length ≤ source then .error .outOfRange
  else calcGo fuel m threshold queue1 (paths.set source 1)

/-- The marking loop of `DRGEP::run`: for `i` ranging over `count` indices
starting at `i0`, set `result[i]` when `pathsLengths[i] >= threshold`. -/
def markGo (paths : List ℚ) (threshold : ℚ) : Nat → Nat → List Bool → List Bool
  | _, 0, result => result
  | i, count + 1, result =>
    markGo paths threshold (i + 1) count
      (if threshold ≤ paths.getD i 0 then result.set i true else result)

/-- The source loop of `DRGEP::run`: run `calcPathLengths` (the ordered
queue is empty both initially and after each inner loop), mark the result
bitmap, and between sources clear the queue and `memset` the path lengths
back to zero. -/
def drgepSources (fuel : Nat) (m : CSRMatrix) (threshold : ℚ) :
    List Nat → List ℚ → List Bool → Except Err (List Bool)
  | [], _, result => .ok result
  | s :: rest, paths, result =>
    match calcPathLengths fuel m s threshold [] paths with
    | .error e => .error e
    | .ok paths2 =>
      let result2 := markGo paths2 threshold 0 m.size result
      match rest with
      | [] => .ok result2
      | _ => drgepSources fuel m threshold rest (List.replicate m.size 0) result2

/-- `DRGEP::run`: all-zero path lengths, all-false result bitmap, then the
per-source worklist computation and marking. -/
def drgepRun (fuel : Nat) (m : CSRMatrix) (sources : List Nat) (threshold : ℚ) :
    Except Err (List Bool) :=
  drgepSources fuel m threshold sources (List.replicate m.size 0)
    (List.replicate m.size false)

/-! ## Bitmap (`collections/bitmap.h`)

A `BoolSection` is one machine word of `W = 64` bits, embedded as a `Nat`
kept below `2 ^ 64`; the wrapping `<<` of the source is modelled by an
explicit `% 2 ^ 64`.  `ALL_BITS_EQUAL_ONE >> (64 - bitIdx)` is executed by
the source with `bitIdx = 0`, a shift by the full word width; the embedding
uses the mathematical shift (result `0`).  The statements proved below do
not depend on that corner. -/

/-- Bits per section (`BITS_COUNT_IN_SECTION`). -/
def wordBits : Nat := 64

/-- `ALL_BITS_EQUAL_ONE`. -/
def allOnes : Nat := 2 ^ wordBits - 1

/-- `BoolSection::getBit`. -/
def sectionGetBit (b i : Nat) : Bool := b.testBit i

/-- `BoolSection::setBit` (without its returned old value). -/
def sectionSetBit (b i : Nat) (v : Bool) : Nat :=
  if v then b ||| (1 <<< i) else b &&& (allOnes ^^^ (1 <<< i))

/-- `BoolSection::insert(bitIdx, value)`: keep the bits below `bitIdx`,
shift the bits at or above it left by one, write `value` at `bitIdx`; the
old most significant bit is returned as the carry. -/
def sectionInsert (b i : Nat) (v : Bool) : Bool × Nat :=
  let leaved := sectionGetBit b (wordBits - 1)
  let bitsBefore := b &&& (allOnes >>> (wordBits - i))
  let bitsAfter := (((allOnes <<< i) % 2 ^ wordBits) &&& b) <<< 1 % 2 ^ wordBits
  (leaved, sectionSetBit (bitsBefore ||| bitsAfter) i v)

/-- `BoolSection::remove(bitIdx, leftestValue)`: drop the bit at `bitIdx`,
shift the bits above it right by one, write `leftestValue` at the top; the
dropped bit is returned. -/
def sectionRemove (b i : Nat) (leftest : Bool) : Bool × Nat :=
  let leaved := sectionGetBit b i
  let bitsBefore := b &&& (allOnes >>> (wordBits - i))
  let bitsAfter := (((allOnes <<< (i + 1)) % 2 ^ wordBits) &&& b) >>> 1
  (leaved, sectionSetBit (bitsBefore ||| bitsAfter) (wordBits - 1) leftest)

/-- The `Bitmap`: its section words and its logical bit count. -/
structure Bitmap where
  sections : List Nat
  size : Nat
deriving DecidableEq

/-- The carry loop of `Bitmap::insert`: for `i` in `[i0, used)` insert the
carry at bit `0` of section `i`, propagating the spilled top bit. -/
def bitmapInsertCarry : Nat → List Nat → Nat → Bool → List Nat
  | 0, secs, _, _ => secs
  | fuel + 1, secs, i, carry =>
    let p := sectionInsert (secs.getD i 0) 0 carry
    bitmapInsertCarry fuel (secs.set i p.2) (i + 1) p.1

/-- `Bitmap::insert(idx, element)`: bounds check, append a fresh section
when every allocated bit is used, insert within the section holding `idx`,
carry the spilled bit through the remaining used sections, grow the size. -/
def bitmapInsert (bm : Bitmap) (idx : Nat) (v : Bool) : Except Err Bitmap :=
  if bm.size < idx then .error .outOfRange
  else
    let secs0 := if bm.sections.length * wordBits = bm.size
      then bm.sections ++ [0] else bm.sections
    let sectionIdx := idx / wordBits
    let bitIdx := idx % wordBits
    let p := sectionInsert (secs0.getD sectionIdx 0) bitIdx v
    let used := bm.size / wordBits + 1
    .ok ⟨bitmapInsertCarry (used - (sectionIdx + 1))
          (secs0.set sectionIdx p.2) (sectionIdx + 1) p.1,
        bm.size + 1⟩

/-- The downward loop of `Bitmap::remove`:
`for (i = usedSections - 1; i > sectionIdx; --i) sections[i].remove(0, leaved)`.
The removed bit of each section is discarded by the source (the carry
variable is never reassigned), so every section's top bit is set to the
initial `false`. -/
def bitmapRemoveLoop (sectionIdx : Nat) : List Nat → Nat → List Nat
  | secs, 0 => secs
  | secs, j + 1 =>
    if sectionIdx < j + 1 then
      bitmapRemoveLoop sectionIdx
        (secs.set (j + 1) (sectionRemove (secs.getD (j + 1) 0) 0 false).2) j
    else secs

/-- `Bitmap::remove(idx)`: bounds check, shift the used sections, remove
within the section holding `idx` and return the dropped bit.  The source
returns at that point: the statements decrementing the size and releasing
trailing sections stand after the `return` and never execute, so the
resulting bitmap keeps its old `size`. -/
def bitmapRemove (bm : Bitmap) (idx : Nat) : Except Err (Bool × Bitmap) :=
  if bm.size ≤ idx then .error .outOfRange
  else
    let sectionIdx := idx / wordBits
    let bitIdx := idx % wordBits
    let used := bm.size / wordBits + (if bm.size % wordBits ≠ 0 then 1 else 0)
    let secs1 := bitmapRemoveLoop sectionIdx bm.sections (used - 1)
    let p := sectionRemove (secs1.getD sectionIdx 0) bitIdx false
    .ok (p.1, ⟨secs1.set sectionIdx p.2, bm.size⟩)

/-! ## Sectioned collection (`collections/sectioned.h`) -/

/-- `SectionedCollection<T>`: the sections (each an `ArrayCollection` of
capacity `sectionSize`), the section size, and the element count. -/
structure Sectioned (α : Type) where
  sections : List (List α)
  sectionSize : Nat
  size : Nat
deriving DecidableEq

/-- The cascade loop of `SectionedCollectionCommonMethods::remove`: for `i`
in `[i0, lastUsed)` append the head of section `i + 1` to section `i`.  Its
inner `remove(0)`/`append` bounds checks cannot fire while every section
before the last used one is full, which holds in the statements below. -/
def sectionedCascade [Inhabited α] : Nat → List (List α) → Nat → List (List α)
  | 0, secs, _ => secs
  | fuel + 1, secs, i =>
    let nxt := secs.getD (i + 1) []
    sectionedCascade fuel
      ((secs.set i (secs.getD i [] ++ [nxt.getD 0 default])).set (i + 1) (nxt.drop 1))
      (i + 1)

/-- `SectionedCollectionCommonMethods::remove(idx)`: bounds check, split
`idx` into section and in-section position, then — as written in the
source — call `section.remove(sectionIdx)`, i.e. the *section* index is
passed to the in-section removal (the computed `idxInSection` is unused).
If the section emptied below a full section, cascade the heads of the later
used sections backwards, decrement the size, and release every fully unused
trailing section. -/
def sectionedRemove [Inhabited α] (s : Sectioned α) (idx : Nat) :
    Except Err (α × Sectioned α) :=
  if s.size ≤ idx then .error .outOfRange
  else
    let sectionIdx := idx / s.sectionSize
    let sec := s.sections.getD sectionIdx []
    if sec.length ≤ sectionIdx then .error .outOfRange
    else
      let result := sec.getD sectionIdx default
      let sec2 := sec.eraseIdx sectionIdx
      let secs2 := s.sections.set sectionIdx sec2
      let lastUsed := (s.size - 1) / s.sectionSize
      let secs3 := if sec2.length + 1 = s.sectionSize
        then sectionedCascade (lastUsed - sectionIdx) secs2 sectionIdx else secs2
      let size2 := s.size - 1
      let toDrop := (s.sectionSize * secs3.length - size2) / s.sectionSize
      .ok (result, ⟨secs3.take (secs3.length - toDrop), s.sectionSize, size2⟩)

/-! ## Python bridge builder (`python_interface/types.cpp`) -/

/-- Python-level error kinds set through `PyErr_SetString`. -/
inductive PyErr where
  | typeError
  | valueError
  | indexError
deriving DecidableEq

/-- The state of a `CSRAdjacencyMatrixObject`: the matrix collections from
`__init__` (`rows` pre-filled with zeros, empty `cols`/`coefs`), the next
expected row index, and the `finalized` flag (initialised `false` by
`CSRAdjacencyMatrixObject_new`). -/
structure PyBuilder where
  rows : List Nat
  cols : List Nat
  coefs : List ℚ
  nextRowIdx : Nat
  finalized : Bool
deriving DecidableEq

/-- `CSRAdjacencyMatrixObject_add_row(array, rowIdx)` for a dense row.  The
numpy representation checks are outside the embedding; the remaining guards
are translated in source order.  No guard consults `finalized`.  On success
the non-zero columns and coefficients are appended, `rows[rowIdx]` receives
the per-row non-zero count and `nextRowIdx` advances. -/
def addRow (b : PyBuilder) (rowIdx : Nat) (row : List ℚ) : Except PyErr PyBuilder :=
  if row.length ≠ b.rows.length then .error .valueError
  else if rowIdx < b.nextRowIdx then .error .valueError
  else if b.rows.length ≤ rowIdx then .error .indexError
  else if b.nextRowIdx = b.rows.length then .error .valueError
  else
    let nzCols := (List.range b.rows.length).filter (fun c => row.getD c 0 ≠ 0)
    .ok ⟨b.rows.set rowIdx nzCols.length,
        b.cols ++ nzCols,
        b.coefs ++ nzCols.map (fun c => row.getD c 0),
        rowIdx + 1,
        b.finalized⟩

/-- The in-place prefix sum of `CSRAdjacencyMatrixObject_finalize`. -/
def prefixSumGo (acc : Nat) : List Nat → List Nat
  | [] => []
  | x :: xs => (acc + x) :: prefixSumGo (acc + x) xs

/-- `CSRAdjacencyMatrixObject_finalize`: prefix-sum the row array in place.
When `finalized` already holds the source merely sets a Python error without
returning, but no code path ever assigns `finalized = true`, so that branch
is unreachable and the flag survives unchanged — in particular finalize
never records that it ran. -/
def finalize (b : PyBuilder) : Except PyErr PyBuilder :=
  .ok ⟨prefixSumGo 0 b.rows, b.cols, b.coefs, b.nextRowIdx, b.finalized⟩

/-! ## Well-formedness of the CSR representation (spec, data model) -/

/-- `row_end` is non-decreasing. -/
def RowsMono (rows : List Nat) : Prop :=
  ∀ j, j < rows.length → ∀ i, i < j + 1 → rows.getD i 0 ≤ rows.getD j 0

/-- `col` is strictly increasing within every row. -/
def ColsSorted (rows cols : List Nat) : Prop :=
  ∀ f, f < rows.length → ∀ k, k < rows.getD f 0 → ∀ j, j < k →
    rowStart rows f ≤ j → cols.getD j 0 < cols.getD k 0

/-- Every stored coefficient is non-negative (finiteness is implicit in ℚ). -/
def CoefsNonneg (coefs : List ℚ) : Prop :=
  ∀ k, k < coefs.length → 0 ≤ coefs.getD k 0

/-- CSR well-formedness: `row_end` non-decreasing, `col` strictly increasing
within every row, `row_end[N-1]` equal to the lengths of `col` and `coef`,
and all coefficients non-negative. -/
def CSRMatrix.WF (m : CSRMatrix) : Prop :=
  RowsMono m.rows ∧
  (m.rows.length ≠ 0 →
    m.rows.getD (m.rows.length - 1) 0 = m.cols.length ∧ m.cols.length = m.coefs.length) ∧
  ColsSorted m.rows m.cols ∧
  CoefsNonneg m.coefs

/-- Every entry of a path-length array is non-negative (with the default `0`
for indices beyond its length). -/
def NonnegQ (paths : List ℚ) : Prop := ∀ k, 0 ≤ paths.getD k 0

/-! ## Concrete instances used by the statements -/

/-- The spec's triangle: `N = 3`, edges `(0,1,0.9)`, `(1,2,0.8)`, `(2,0,0.7)`. -/
def triangle : CSRMatrix := ⟨[1, 2, 3], [1, 2, 0], [mkRat 9 10, mkRat 4 5, mkRat 7 10]⟩

/-- `N = 4`, edges `(0,1,0.3)`, `(0,2,0.5)`, `(0,3,0.9)`, `(3,1,0.5)`: after
popping vertex `3`, the edge `(3,1)` improves `paths[1]` from `0.3` to
`0.45` while vertex `1` sits below vertex `2` (key `0.5`) in the queue, so
the relocation path of `updateQueue` is exercised. -/
def reprioGraph : CSRMatrix := ⟨[3, 3, 3, 4], [1, 2, 3, 1], [mkRat 3 10, mkRat 1 2, mkRat 9 10, mkRat 1 2]⟩

/-- A one-vertex matrix with no stored entries. -/
def oneVertexEmpty : CSRMatrix := ⟨[0], [], []⟩

/-- A one-vertex matrix whose single stored entry `(0,0)` has coefficient
`0` — the state reached from `selfLoop` by `setCoef(0, 0, 0)`. -/
def zeroedRow : CSRMatrix := ⟨[1], [0], [0]⟩

/-- A one-vertex matrix with the single edge `(0,0)` of weight `1`. -/
def selfLoop : CSRMatrix := ⟨[1], [0], [1]⟩

/-! ## Claim theorems -/

/-- C1: the end-to-end DRG scenario on the thresholded triangle *fails* on
the code.  With sources `{0}` and threshold `0.85` the run returns the
bitmap `{0, 1, 2}`, not `{0, 1}`: after the pruning pass zeroes the edges
`(1,2)` and `(2,0)`, the iterator constructor positions itself on the first
stored entry with column `≥ 0` without inspecting its coefficient, so the
DFS still traverses the zeroed edge `(1,2)` and marks vertex `2`. -/
theorem drg_triangle_thresholded_retains_all :
    drgRun 100 triangle [0] (mkRat 17 20) = Except.ok [true, true, true] := by decide

/-- C2: DRGEP's re-prioritisation does not search with the old key: the
source replaces `paths[u]` *before* `updateQueue` runs, so the relocation
search compares the queue against the already-updated key, misses the slot
the node occupies, and throws `invalid_argument` — exhibited both on
`updateQueue` directly (queue `[1, 2]`, stored lengths `paths[1] = 9/20`
already overwritten, `paths[2] = 1/2`) and on a full run over
`reprioGraph`. -/
theorem drgep_reprioritisation_throws :
    updateQueue [1, 2] [1, mkRat 9 20, mkRat 1 2, mkRat 9 10] 1 = Except.error Err.invalidArgument ∧
    drgepRun 1000 reprioGraph [0] 0 = Except.error Err.invalidArgument := by decide

/-- C3: DRG's source validation is `source > matrix.getSize()`, so the
out-of-range source `s = N` passes the check and the run instead fails at
the bitmap's bounds-checked `achievables[source]` read (`out_of_range`,
the taxonomy's InvalidIndex), while `s > N` is rejected by the explicit
check with `invalid_argument` (the taxonomy's InvalidArgument) — not the
uniform InvalidIndex the claim states. -/
theorem drg_source_validation_behaviour :
    drgRun 100 oneVertexEmpty [1] 0 = Except.error Err.outOfRange ∧
    drgRun 100 oneVertexEmpty [2] 0 = Except.error Err.invalidArgument := ⟨rfl, rfl⟩

/-- C4: a freshly created neighbour iterator over a row whose stored entries
are all zero is *not* stopped: `zeroedRow` is reachable from `selfLoop` by
`setCoef(0, 0, 0)`, yet the iterator built over its row `0` has
`stopped = false` because the constructor never inspects coefficients. -/
theorem iterator_zero_row_not_stopped :
    setCoef selfLoop 0 0 0 = Except.ok (1, zeroedRow) ∧
    (csrIterInit zeroedRow 0 0 0).stopped = false := ⟨rfl, rfl⟩

/-- C5: the constructor of `_CSRNeighboursIterator` never assigns the member
`from`, so `getFrom()` returns whatever the freshly allocated memory held
(modelled by the explicit `junk` argument, here `5`) instead of the
requested row `0`. -/
theorem iterator_from_member_uninitialized :
    (csrIterInit triangle 0 0 5).frm = 5 ∧ (csrIterInit triangle 0 0 5).frm ≠ 0 := by
  decide

/-- C7: the bitmap insert/remove round trip fails: on the empty bitmap,
`insert(0, true)` followed by `remove(0)` returns the inserted bit but
leaves a bitmap of size `1` — the size decrement of `remove` stands after
an early `return` and never executes. -/
theorem bitmap_insert_remove_not_inverse :
    (bitmapInsert ⟨[], 0⟩ 0 true).bind (fun b => bitmapRemove b 0) =
      Except.ok (true, ⟨[0], 1⟩) ∧
    (⟨[0], 1⟩ : Bitmap).size ≠ (⟨[], 0⟩ : Bitmap).size := ⟨rfl, by decide⟩

/-- C8: `SectionedCollection::remove` passes the *section* index to the
in-section removal.  With section size `2` and elements `[10, 20, 30]`,
`remove(1)` should return the element `20` stored at logical index `1`
(section `0`, offset `1`) and leave `[10, 30]`; the code removes offset `0`
instead, returning `10` and leaving `[20, 30]`. -/
theorem sectioned_remove_wrong_index :
    sectionedRemove (⟨[[10, 20], [30]], 2, 3⟩ : Sectioned Nat) 1 =
      Except.ok (10, ⟨[[20, 30]], 2, 2⟩) ∧
    ((⟨[[10, 20], [30]], 2, 3⟩ : Sectioned Nat).sections.getD 0 []).getD 1 0 = 20 :=
  ⟨rfl, rfl⟩

/-- C9: `finalize` never sets the `finalized` flag and `add_row` never
consults it, so on a size-2 matrix where only row `0` was added, an
`add_row` for row `1` *after* `finalize` succeeds and mutates the matrix
(appending to `cols`/`coefs` and overwriting the prefix-summed `rows[1]`
with a raw count) instead of being rejected with InvalidState. -/
theorem add_row_after_finalize_succeeds :
    (do
      let b1 ← addRow ⟨[0, 0], [], [], 0, false⟩ 0 [0, mkRat 1 2]
      let b2 ← finalize b1
      addRow b2 1 [1, 0]) = Except.ok (⟨[1, 1], [1, 0], [mkRat 1 2, 1], 2, false⟩ : PyBuilder) := by
  decide

/-- C10 counterexample: DRGEP with threshold `0` does not always return a
bitmap at all — on `reprioGraph` with the single in-range source `0` the
run aborts with the `invalid_argument` exception of `updateQueue` (the
re-prioritisation defect of C2), so the claim's unconditional "returns a
bitmap with all N bits set" is false. -/
theorem drgep_threshold_zero_counterexample :
    drgepRun 1000 reprioGraph [0] 0 = Except.error Err.invalidArgument := by decide

/-! ## List access lemmas for the embedded collection operations -/

theorem length_insertAt : ∀ (xs : List α) (i : Nat) (a : α), i ≤ xs.length →
    (insertAt xs i a).length = xs.length + 1
  | _, 0, _, _ => by simp [insertAt]
  | [], _ + 1, _, h => by simp at h
  | x :: xs, i + 1, a, h => by
    simp only [insertAt, List.length_cons]
    rw [length_insertAt xs i a (by simpa using h)]

theorem getD_insertAt_lt : ∀ (xs : List α) (i j : Nat) (a d : α), j < i → i ≤ xs.length →
    (insertAt xs i a).getD j d = xs.getD j d
  | _, 0, j, _, _, h, _ => absurd h (Nat.not_lt_zero j)
  | [], _ + 1, _, _, _, _, hle => by simp at hle
  | x :: xs, i + 1, 0, a, d, _, _ => by simp [insertAt]
  | x :: xs, i + 1, j + 1, a, d, h, hle => by
    simp only [insertAt, List.getD_cons_succ]
    exact getD_insertAt_lt xs i j a d (by omega) (by simpa using hle)

theorem getD_insertAt_self : ∀ (xs : List α) (i : Nat) (a d : α), i ≤ xs.length →
    (insertAt xs i a).getD i d = a
  | _, 0, _, _, _ => by simp [insertAt]
  | [], _ + 1, _, _, h => by simp at h
  | x :: xs, i + 1, a, d, h => by
    simp only [insertAt, List.getD_cons_succ]
    exact getD_insertAt_self xs i a d (by simpa using h)

theorem getD_insertAt_gt : ∀ (xs : List α) (i j : Nat) (a d : α), i < j → i ≤ xs.length →
    (insertAt xs i a).getD j d = xs.getD (j - 1) d
  | xs, 0, j + 1, a, d, _, _ => by simp [insertAt]
  | [], _ + 1, _, _, _, _, hle => by simp at hle
  | x :: xs, i + 1, j + 1, a, d, h, hle => by
    have hj : 0 < j := by omega
    simp only [insertAt, List.getD_cons_succ]
    rw [getD_insertAt_gt xs i j a d (by omega) (by simpa using hle)]
    obtain ⟨j, rfl⟩ : ∃ j2, j = j2 + 1 := ⟨j - 1, by omega⟩
    simp

theorem getD_set_ite : ∀ (xs : List α) (i j : Nat) (a d : α),
    (xs.set i a).getD j d = if i = j ∧ j < xs.length then a else xs.getD j d
  | [], i, j, a, d => by simp
  | x :: xs, 0, 0, a, d => by simp
  | x :: xs, 0, j + 1, a, d => by simp
  | x :: xs, i + 1, 0, a, d => by simp
  | x :: xs, i + 1, j + 1, a, d => by
    simp only [List.set, List.getD_cons_succ, getD_set_ite xs i j a d]
    have : (i = j ∧ j < xs.length) ↔ (i + 1 = j + 1 ∧ j + 1 < xs.length + 1) := by omega
    simp only [List.length_cons]
    split_ifs with h1 h2 h2 <;> first | rfl | omega

theorem length_incFrom : ∀ (rows : List Nat) (f : Nat), (incFrom rows f).length = rows.length
  | [], _ => rfl
  | x :: xs, 0 => by simp [incFrom, length_incFrom xs 0]
  | x :: xs, f + 1 => by simp [incFrom, length_incFrom xs f]

theorem getD_incFrom : ∀ (rows : List Nat) (f i : Nat),
    (incFrom rows f).getD i 0 = rows.getD i 0 + (if f ≤ i ∧ i < rows.length then 1 else 0)
  | [], f, i => by simp [incFrom]
  | x :: xs, 0, 0 => by simp [incFrom]
  | x :: xs, 0, i + 1 => by
    simp only [incFrom, List.getD_cons_succ, getD_incFrom xs 0 i, List.length_cons]
    split_ifs <;> omega
  | x :: xs, f + 1, 0 => by simp [incFrom]
  | x :: xs, f + 1, i + 1 => by
    simp only [incFrom, List.getD_cons_succ, getD_incFrom xs f i, List.length_cons]
    split_ifs <;> omega

theorem getD_replicate_zero : ∀ (n k : Nat), (List.replicate n (0 : ℚ)).getD k 0 = 0
  | 0, _ => by simp
  | _ + 1, 0 => by simp [List.replicate]
  | n + 1, k + 1 => by simp [List.replicate, getD_replicate_zero n k]

/-! ## Binary search characterisation -/

theorem bsearchGo_ge : ∀ (fuel : Nat) (pred : Nat → Bool) (start stop : Nat),
    start ≤ bsearchGo pred fuel start stop
  | 0, _, _, _ => Nat.le_refl _
  | fuel + 1, pred, start, stop => by
    simp only [bsearchGo]
    split
    · split
      · exact le_trans (by omega) (bsearchGo_ge fuel pred ((stop + start) / 2 + 1) stop)
      · exact bsearchGo_ge fuel pred start ((stop + start) / 2)
    · exact Nat.le_refl _

theorem bsearchGo_le : ∀ (fuel : Nat) (pred : Nat → Bool) (start stop : Nat),
    start ≤ stop → bsearchGo pred fuel start stop ≤ stop
  | 0, _, _, _, h => h
  | fuel + 1, pred, start, stop, h => by
    simp only [bsearchGo]
    split
    · split
      · exact bsearchGo_le fuel pred _ stop (by omega)
      · exact le_trans (bsearchGo_le fuel pred start _ (by omega)) (by omega)
    · exact h

theorem bsearchGo_spec_true (pred : Nat → Bool) (lo hi : Nat)
    (hm : ∀ i j, lo ≤ i → i ≤ j → j < hi → pred j = true → pred i = true) :
    ∀ (fuel start stop : Nat), stop - start ≤ fuel → lo ≤ start → stop ≤ hi →
      ∀ k, start ≤ k → k < bsearchGo pred fuel start stop → pred k = true
  | 0, start, stop, hfu, _, _, k, hk1, hk2 => by simp only [bsearchGo] at hk2; omega
  | fuel + 1, start, stop, hfu, hlo, hhi, k, hk1, hk2 => by
    rw [bsearchGo] at hk2
    split at hk2
    case isTrue hlt =>
      split at hk2
      case isTrue hp =>
        rcases Nat.lt_or_ge k ((stop + start) / 2 + 1) with hcase | hcase
        · exact hm k ((stop + start) / 2) (le_trans hlo hk1) (by omega) (by omega) hp
        · exact bsearchGo_spec_true pred lo hi hm fuel ((stop + start) / 2 + 1) stop
            (by omega) (by omega) hhi k hcase hk2
      case isFalse hp =>
        exact bsearchGo_spec_true pred lo hi hm fuel start ((stop + start) / 2)
          (by omega) hlo (by omega) k hk1 hk2
    case isFalse => omega

theorem bsearchGo_spec_false (pred : Nat → Bool) (lo hi : Nat)
    (hm : ∀ i j, lo ≤ i → i ≤ j → j < hi → pred j = true → pred i = true) :
    ∀ (fuel start stop : Nat), stop - start ≤ fuel → lo ≤ start → stop ≤ hi →
      ∀ k, bsearchGo pred fuel start stop ≤ k → k < stop → pred k = false
  | 0, start, stop, hfu, _, _, k, hk1, hk2 => by simp only [bsearchGo] at hk1; omega
  | fuel + 1, start, stop, hfu, hlo, hhi, k, hk1, hk2 => by
    rw [bsearchGo] at hk1
    split at hk1
    case isTrue hlt =>
      split at hk1
      case isTrue hp =>
        exact bsearchGo_spec_false pred lo hi hm fuel ((stop + start) / 2 + 1) stop
          (by omega) (by omega) hhi k hk1 hk2
      case isFalse hp =>
        rcases Nat.lt_or_ge k ((stop + start) / 2) with hcase | hcase
        · exact bsearchGo_spec_false pred lo hi hm fuel start ((stop + start) / 2)
            (by omega) hlo (by omega) k hk1 hcase
        · rcases Nat.eq_or_lt_of_le hcase with hcase2 | hcase2
          · rw [hcase2] at hp; exact Bool.eq_false_iff.mpr (fun hc => hp hc)
          · refine Bool.eq_false_iff.mpr (fun hc => ?_)
            have := hm ((stop + start) / 2) k (le_trans hlo (by omega)) (by omega)
              (by omega) hc
            exact hp this
    case isFalse => omega

/-! ## C6: setCoef preserves CSR well-formedness -/

/-- C6: starting from a well-formed CSR matrix, `setCoef(from, to, v)` with
in-range indices and finite non-negative `v` succeeds and leaves the matrix
well-formed, whether it overwrites a stored entry, inserts a new one, or
returns without change for an absent entry and `v = 0`. -/
theorem setCoef_preserves_wf (m : CSRMatrix) (f t : Nat) (v : ℚ)
    (hwf : m.WF) (hf : f < m.size) (ht : t < m.size) (hv : 0 ≤ v) :
    ∃ old m2, setCoef m f t v = Except.ok (old, m2) ∧ m2.WF := by
  obtain ⟨hmono, hlen2, hsort, hnn⟩ := hwf
  have hfN : f < m.rows.length := hf
  have htN : t < m.rows.length := ht
  have hN : m.rows.length ≠ 0 := by omega
  obtain ⟨hlc, hcc⟩ := hlen2 hN
  have hss : rowStart m.rows f ≤ m.rows.getD f 0 := by
    unfold rowStart
    split
    · exact hmono f hfN (f - 1) (by omega)
    · exact Nat.zero_le _
  have hstoplen : m.rows.getD f 0 ≤ m.cols.length := by
    have h := hmono (m.rows.length - 1) (by omega) f (by omega)
    rw [hlc] at h
    exact h
  have hm : ∀ i j, rowStart m.rows f ≤ i → i ≤ j → j < m.rows.getD f 0 →
      (fun i => decide (m.cols.getD i 0 ≤ t)) j = true →
      (fun i => decide (m.cols.getD i 0 ≤ t)) i = true := by
    intro i j hi hij hj hpj
    simp only [decide_eq_true_eq] at hpj ⊢
    rcases Nat.eq_or_lt_of_le hij with rfl | hlt
    · exact hpj
    · exact le_of_lt (lt_of_lt_of_le (hsort f hfN j hj i hlt hi) hpj)
  set idx := bsearchLeftToIns (fun i => decide (m.cols.getD i 0 ≤ t))
    (rowStart m.rows f) (m.rows.getD f 0) with hidxdef
  have hidx_ge : rowStart m.rows f ≤ idx := by
    rw [hidxdef]; exact bsearchGo_ge _ _ _ _
  have hidx_le : idx ≤ m.rows.getD f 0 := by
    rw [hidxdef]; exact bsearchGo_le _ _ _ _ hss
  have hA : ∀ k, rowStart m.rows f ≤ k → k < idx → m.cols.getD k 0 ≤ t := by
    intro k h1 h2
    rw [hidxdef] at h2
    have h3 := bsearchGo_spec_true (fun i => decide (m.cols.getD i 0 ≤ t))
      (rowStart m.rows f) (m.rows.getD f 0) hm
      (m.rows.getD f 0 - rowStart m.rows f) (rowStart m.rows f) (m.rows.getD f 0)
      (Nat.le_refl _) (Nat.le_refl _) (Nat.le_refl _) k h1 h2
    simpa using h3
  have hB : ∀ k, idx ≤ k → k < m.rows.getD f 0 → t < m.cols.getD k 0 := by
    intro k h1 h2
    rw [hidxdef] at h1
    have h3 := bsearchGo_spec_false (fun i => decide (m.cols.getD i 0 ≤ t))
      (rowStart m.rows f) (m.rows.getD f 0) hm
      (m.rows.getD f 0 - rowStart m.rows f) (rowStart m.rows f) (m.rows.getD f 0)
      (Nat.le_refl _) (Nat.le_refl _) (Nat.le_refl _) k h1 h2
    simp only [decide_eq_false_iff_not, Nat.not_le] at h3
    exact h3
  have hguard : ¬(m.size ≤ f ∨ m.size ≤ t) := by
    simp only [CSRMatrix.size]; omega
  by_cases hfound : idx ≠ rowStart m.rows f ∧ m.cols.getD (idx - 1) 0 = t
  · -- overwrite: `coefs.replace(idx - 1, coef)`
    refine ⟨m.coefs.getD (idx - 1) 0, ⟨m.rows, m.cols, m.coefs.set (idx - 1) v⟩, ?_, ?_⟩
    · simp only [setCoef]
      rw [if_neg hguard, ← hidxdef, if_pos hfound]
    · refine ⟨hmono, ?_, hsort, ?_⟩
      · intro h0
        simp only [List.length_set]
        exact ⟨hlc, hcc⟩
      · intro k hk
        simp only [List.length_set] at hk
        rw [getD_set_ite]
        split_ifs with h
        · exact hv
        · exact hnn k hk
  · by_cases hv0 : v ≠ 0
    · -- insert a fresh entry at `idx`
      have hidxlen : idx ≤ m.cols.length := le_trans hidx_le hstoplen
      have hidxlen2 : idx ≤ m.coefs.length := by omega
      have hlt : ∀ p, rowStart m.rows f ≤ p → p < idx → m.cols.getD p 0 < t := by
        intro p hp hpi
        rcases lt_or_eq_of_le (hA p hp hpi) with h | h
        · exact h
        · exfalso
          have hne : idx ≠ rowStart m.rows f := by omega
          have hne2 : m.cols.getD (idx - 1) 0 ≠ t := fun hEq => hfound ⟨hne, hEq⟩
          rcases Nat.lt_or_ge p (idx - 1) with hp2 | hp2
          · have h3 : m.cols.getD p 0 < m.cols.getD (idx - 1) 0 :=
              hsort f hfN (idx - 1) (by omega) p hp2 hp
            have h4 : m.cols.getD (idx - 1) 0 ≤ t := hA (idx - 1) (by omega) (by omega)
            omega
          · have hpe : p = idx - 1 := by omega
            rw [hpe] at h; exact hne2 h
      have hvalLt : ∀ p, p < idx → (insertAt m.cols idx t).getD p 0 = m.cols.getD p 0 :=
        fun p hp => getD_insertAt_lt _ _ _ _ _ hp hidxlen
      have hvalEq : (insertAt m.cols idx t).getD idx 0 = t :=
        getD_insertAt_self _ _ _ _ hidxlen
      have hvalGt : ∀ p, idx < p → (insertAt m.cols idx t).getD p 0 = m.cols.getD (p - 1) 0 :=
        fun p hp => getD_insertAt_gt _ _ _ _ _ hp hidxlen
      refine ⟨0, ⟨incFrom m.rows f, insertAt m.cols idx t, insertAt m.coefs idx v⟩, ?_, ?_⟩
      · simp only [setCoef]
        rw [if_neg hguard, ← hidxdef, if_neg hfound, if_pos hv0]
      · refine ⟨?_, ?_, ?_, ?_⟩
        · -- RowsMono
          intro j hj i hi
          rw [length_incFrom] at hj
          rw [getD_incFrom, getD_incFrom]
          have := hmono j hj i hi
          split_ifs <;> omega
        · -- lengths
          intro _
          show (incFrom m.rows f).getD ((incFrom m.rows f).length - 1) 0 =
              (insertAt m.cols idx t).length ∧
            (insertAt m.cols idx t).length = (insertAt m.coefs idx v).length
          rw [length_incFrom, getD_incFrom, length_insertAt _ _ _ hidxlen,
            length_insertAt _ _ _ hidxlen2, if_pos (by omega : f ≤ m.rows.length - 1 ∧
              m.rows.length - 1 < m.rows.length)]
          omega
        · -- ColsSorted
          intro g hg k hk j hjk hjs
          rw [length_incFrom] at hg
          rw [getD_incFrom] at hk
          rcases Nat.lt_trichotomy g f with hgf | hgf | hgf
          · -- g < f : the row's slice is untouched
            rw [if_neg (by omega : ¬(f ≤ g ∧ g < m.rows.length))] at hk
            have hjs2 : rowStart m.rows g ≤ j := by
              unfold rowStart at hjs ⊢
              by_cases hg0 : g ≠ 0
              · rw [if_pos hg0] at hjs ⊢
                rw [getD_incFrom, if_neg (by omega : ¬(f ≤ g - 1 ∧ g - 1 < m.rows.length))] at hjs
                omega
              · rw [if_neg hg0] at hjs ⊢; omega
            have hkidx : k < idx := by
              have h1 : m.rows.getD g 0 ≤ m.rows.getD (f - 1) 0 :=
                hmono (f - 1) (by omega) g (by omega)
              have h2 : rowStart m.rows f = m.rows.getD (f - 1) 0 := by
                unfold rowStart; rw [if_pos (by omega : f ≠ 0)]
              omega
            rw [hvalLt j (by omega), hvalLt k hkidx]
            exact hsort g (by omega) k (by omega) j hjk hjs2
          · -- g = f : the row that received the new entry
            subst hgf
            rw [if_pos (by omega : g ≤ g ∧ g < m.rows.length)] at hk
            have hjs2 : rowStart m.rows g ≤ j := by
              unfold rowStart at hjs ⊢
              by_cases hg0 : g ≠ 0
              · rw [if_pos hg0] at hjs ⊢
                rw [getD_incFrom, if_neg (by omega : ¬(g ≤ g - 1 ∧ g - 1 < m.rows.length))] at hjs
                omega
              · rw [if_neg hg0] at hjs ⊢; omega
            rcases Nat.lt_trichotomy k idx with hki | hki | hki
            · rw [hvalLt k hki, hvalLt j (by omega)]
              exact hsort g hg k (by omega) j hjk hjs2
            · rw [hki, hvalEq, hvalLt j (by omega)]
              exact hlt j hjs2 (by omega)
            · rw [hvalGt k hki]
              have hk1 : k - 1 < m.rows.getD g 0 := by omega
              have ht_lt : t < m.cols.getD (k - 1) 0 := hB (k - 1) (by omega) hk1
              rcases Nat.lt_trichotomy j idx with hji | hji | hji
              · rw [hvalLt j hji]; exact lt_trans (hlt j hjs2 hji) ht_lt
              · rw [hji, hvalEq]; exact ht_lt
              · rw [hvalGt j hji]
                exact hsort g hg (k - 1) hk1 (j - 1) (by omega) (by omega)
          · -- f < g : the row's slice shifts right by one
            have hg1 : g ≠ 0 := by omega
            rw [if_pos (by omega : f ≤ g ∧ g < m.rows.length)] at hk
            have hjs2 : m.rows.getD (g - 1) 0 + 1 ≤ j := by
              unfold rowStart at hjs
              rw [if_pos hg1, getD_incFrom,
                if_pos (by omega : f ≤ g - 1 ∧ g - 1 < m.rows.length)] at hjs
              omega
            have hstart_ge : m.rows.getD f 0 ≤ m.rows.getD (g - 1) 0 :=
              hmono (g - 1) (by omega) f (by omega)
            have hjidx : idx < j := by omega
            rw [hvalGt j hjidx, hvalGt k (by omega)]
            refine hsort g hg (k - 1) (by omega) (j - 1) (by omega) ?_
            unfold rowStart
            rw [if_pos hg1]
            omega
        · -- CoefsNonneg
          intro k hk
          rw [length_insertAt _ _ _ hidxlen2] at hk
          rcases Nat.lt_trichotomy k idx with h | h | h
          · rw [getD_insertAt_lt _ _ _ _ _ h hidxlen2]
            exact hnn k (by omega)
          · rw [h, getD_insertAt_self _ _ _ _ hidxlen2]
            exact hv
          · rw [getD_insertAt_gt _ _ _ _ _ h hidxlen2]
            exact hnn (k - 1) (by omega)
    · -- absent entry and v = 0: unchanged
      rw [not_not] at hv0
      refine ⟨0, m, ?_, ⟨hmono, hlen2, hsort, hnn⟩⟩
      simp only [setCoef]
      rw [if_neg hguard, ← hidxdef, if_neg hfound, if_neg (by simp [hv0])]

/-- C6 witness: the hypotheses and conclusion of `setCoef_preserves_wf`
realised on the one-vertex matrix `selfLoop` with `setCoef(0, 0, 2)`. -/
theorem setCoef_preserves_wf_witness :
    ∃ old m2, setCoef selfLoop 0 0 2 = Except.ok (old, m2) ∧ m2.WF :=
  setCoef_preserves_wf selfLoop 0 0 2
    (by unfold CSRMatrix.WF RowsMono ColsSorted CoefsNonneg; decide)
    (by decide) (by decide) (by decide)

/-! ## C10: DRGEP with threshold 0 marks every vertex it returns -/

theorem nonnegQ_set (paths : List ℚ) (u : Nat) (w : ℚ) (hw : 0 ≤ w) (h : NonnegQ paths) :
    NonnegQ (paths.set u w) := by
  intro k
  rw [getD_set_ite]
  split_ifs with hc
  · exact hw
  · exact h k

theorem nonnegQ_replicate (n : Nat) : NonnegQ (List.replicate n 0) :=
  fun k => le_of_eq (getD_replicate_zero n k).symm

theorem neighLoop_nonneg : ∀ (fuel : Nat) (m : CSRMatrix) (θ : ℚ) (it : CSRIter)
    (queue : List Nat) (paths : List ℚ) (l : ℚ) (out : List Nat × List ℚ),
    0 ≤ θ → NonnegQ paths → neighLoop fuel m θ it queue paths l = Except.ok out →
    NonnegQ out.2
  | 0, m, θ, it, queue, paths, l, out, _, _, h => by simp [neighLoop] at h
  | fuel + 1, m, θ, it, queue, paths, l, out, hθ, hp, h => by
    simp only [neighLoop] at h
    split at h
    next =>
      injection h with h2
      rw [← h2]
      exact hp
    next =>
      split at h
      next => exact absurd h (by simp)
      next =>
        split at h
        next => exact neighLoop_nonneg fuel m θ _ queue paths l out hθ hp h
        next =>
          split at h
          next => exact neighLoop_nonneg fuel m θ _ queue paths l out hθ hp h
          next hwθ =>
            have hw : (0 : ℚ) ≤ iterGetCoef m it * l := le_trans hθ (not_lt.mp hwθ)
            have hp2 : NonnegQ (paths.set (iterGetTo m it) (iterGetCoef m it * l)) :=
              nonnegQ_set _ _ _ hw hp
            split at h
            next => exact neighLoop_nonneg fuel m θ _ _ _ l out hθ hp2 h
            next =>
              split at h
              next => exact absurd h (by simp)
              next => exact neighLoop_nonneg fuel m θ _ _ _ l out hθ hp2 h

theorem calcGo_nonneg : ∀ (fuel : Nat) (m : CSRMatrix) (θ : ℚ) (queue : List Nat)
    (paths out : List ℚ), 0 ≤ θ → NonnegQ paths →
    calcGo fuel m θ queue paths = Except.ok out → NonnegQ out
  | 0, m, θ, queue, paths, out, _, _, h => by simp [calcGo] at h
  | fuel + 1, m, θ, queue, paths, out, hθ, hp, h => by
    simp only [calcGo] at h
    split at h
    next =>
      injection h with h2
      rw [← h2]
      exact hp
    next currentNode heq =>
      split at h
      next => exact absurd h (by simp)
      next =>
        split at h
        next => exact absurd h (by simp)
        next it heq2 =>
          split at h
          next => exact absurd h (by simp)
          next queue2 paths2 heq3 =>
            exact calcGo_nonneg fuel m θ queue2 paths2 out hθ
              (neighLoop_nonneg fuel m θ it queue.dropLast paths
                (paths.getD currentNode 0) (queue2, paths2) hθ hp heq3) h

theorem calcPathLengths_nonneg (fuel : Nat) (m : CSRMatrix) (source : Nat) (θ : ℚ)
    (queue : List Nat) (paths out : List ℚ) (hθ : 0 ≤ θ) (hp : NonnegQ paths)
    (h : calcPathLengths fuel m source θ queue paths = Except.ok out) : NonnegQ out := by
  simp only [calcPathLengths] at h
  split at h
  · exact absurd h (by simp)
  · exact calcGo_nonneg fuel m θ _ _ out hθ (nonnegQ_set paths source 1 (by norm_num) hp) h

theorem markGo_length (paths : List ℚ) (θ : ℚ) : ∀ (count i : Nat) (result : List Bool),
    (markGo paths θ i count result).length = result.length
  | 0, _, _ => rfl
  | count + 1, i, result => by
    simp only [markGo]
    rw [markGo_length paths θ count (i + 1) _]
    split_ifs <;> simp

theorem markGo_true_mono (paths : List ℚ) (θ : ℚ) :
    ∀ (count i j : Nat) (result : List Bool), result.getD j false = true →
      (markGo paths θ i count result).getD j false = true
  | 0, _, _, _, h => h
  | count + 1, i, j, result, h => by
    simp only [markGo]
    apply markGo_true_mono paths θ count (i + 1) j
    split_ifs with hc
    · rw [getD_set_ite]
      split_ifs with hc2
      · rfl
      · exact h
    · exact h

theorem markGo_marks (paths : List ℚ) (θ : ℚ) (hall : ∀ k, θ ≤ paths.getD k 0) :
    ∀ (count i : Nat) (result : List Bool) (j : Nat), i ≤ j → j < i + count →
      j < result.length → (markGo paths θ i count result).getD j false = true
  | 0, i, result, j, h1, h2, h3 => by omega
  | count + 1, i, result, j, h1, h2, h3 => by
    simp only [markGo]
    rw [if_pos (hall i)]
    rcases Nat.eq_or_lt_of_le h1 with rfl | hlt
    · apply markGo_true_mono
      rw [getD_set_ite, if_pos ⟨rfl, h3⟩]
    · exact markGo_marks paths θ hall count (i + 1) (result.set i true) j hlt (by omega)
        (by rw [List.length_set]; exact h3)

theorem drgepSources_true_mono (fuel : Nat) (m : CSRMatrix) (θ : ℚ) :
    ∀ (sources : List Nat) (paths : List ℚ) (result out : List Bool),
      drgepSources fuel m θ sources paths result = Except.ok out →
      result.length = m.size →
      (∀ j, j < m.size → result.getD j false = true) →
      ∀ j, j < m.size → out.getD j false = true
  | [], paths, result, out, h, _, hres, j, hj => by
    simp only [drgepSources] at h
    injection h with h2
    rw [← h2]
    exact hres j hj
  | s :: rest, paths, result, out, h, hlen, hres, j, hj => by
    simp only [drgepSources] at h
    split at h
    next => exact absurd h (by simp)
    next paths2 heq =>
      split at h
      next =>
        injection h with h2
        rw [← h2]
        exact markGo_true_mono paths2 θ m.size 0 j result (hres j hj)
      next =>
        exact drgepSources_true_mono fuel m θ rest (List.replicate m.size 0)
          (markGo paths2 θ 0 m.size result) out h
          (by rw [markGo_length]; exact hlen)
          (fun j2 hj2 => markGo_true_mono paths2 θ m.size 0 j2 result (hres j2 hj2)) j hj

/-- C10 (amended): whenever `DRGEP::run` with threshold `0` on a non-empty
source list returns normally, every one of the `N` result bits is set: the
marking pass retains each vertex `i` with `paths[i] ≥ 0`, every stored path
length is non-negative (a length is only written when it is not below the
threshold), and unreached vertices keep `paths[i] = 0 ≥ 0`. -/
theorem drgep_threshold_zero_marks_all (fuel : Nat) (m : CSRMatrix) (sources : List Nat)
    (res : List Bool) (hne : sources ≠ [])
    (hok : drgepRun fuel m sources 0 = Except.ok res) :
    ∀ j, j < m.size → res.getD j false = true := by
  intro j hj
  simp only [drgepRun] at hok
  cases sources with
  | nil => exact absurd rfl hne
  | cons s rest =>
    simp only [drgepSources] at hok
    split at hok
    next => exact absurd hok (by simp)
    next paths2 heq =>
      have hp2 : NonnegQ paths2 :=
        calcPathLengths_nonneg fuel m s 0 [] (List.replicate m.size 0) paths2 le_rfl
          (nonnegQ_replicate m.size) heq
      have hmarks : ∀ jj, jj < m.size →
          (markGo paths2 0 0 m.size (List.replicate m.size false)).getD jj false = true := by
        intro jj hjj
        exact markGo_marks paths2 0 (fun k => hp2 k) m.size 0
          (List.replicate m.size false) jj (Nat.zero_le _) (by omega)
          (by rw [List.length_replicate]; exact hjj)
      split at hok
      next =>
        injection hok with h2
        rw [← h2]
        exact hmarks j hj
      next =>
        exact drgepSources_true_mono fuel m 0 rest (List.replicate m.size 0)
          (markGo paths2 0 0 m.size (List.replicate m.size false)) res hok
          (by rw [markGo_length, List.length_replicate]) hmarks j hj

/-- C10 witness: on the one-vertex matrix `selfLoop` with source list `[0]`
and threshold `0`, the run returns `[true]` and the theorem yields that the
bit of vertex `0` is set. -/
theorem drgep_threshold_zero_marks_all_witness :
    ([true] : List Bool).getD 0 false = true :=
  drgep_threshold_zero_marks_all 10 selfLoop [0] [true] (by decide) (by decide) 0 (by decide)

end Hkreduce
